import Mathlib

/-!
Verification of the Grade-Converter frontend and of the grade-computation
engine it drives.

The definitions below are shallow embeddings of the JavaScript source:
numbers are modelled by `ℚ` (the source performs only field arithmetic and
comparisons on them), nullable gradebook cells by an explicit `CellValue`
type, and JavaScript objects holding ordered string keys by association
lists.  Functions keep the names of the source functions they embed.  The
backend grading engine (`app/services/grading.py`) is not part of the
source tree; the definitions for it are modelled from the specification
and are marked as such in their doc comments.
-/

namespace GradeConverter

/-- A raw gradebook cell as the frontend sees it: absent (`null`,
`undefined` or the empty string), present but not parseable as a number
(`parseFloat` yields `NaN`), or a numeric value. -/
inductive CellValue where
  | missing : CellValue
  | nonNumeric : CellValue
  | num : ℚ → CellValue
deriving DecidableEq, Repr

namespace GradeDisplay

/-- Embeds `calculatePercentage` from
`src/frontend/src/components/GradeDisplay.vue` (lines 89-96): returns
`null` when the cell is absent or non-numeric, or when `points_possible`
is absent, zero (falsy) or non-positive; otherwise the raw score divided
by the points possible, times 100. -/
def calculatePercentage (value : CellValue) (pointsPossible : Option ℚ) : Option ℚ :=
  match value with
  | .missing => none
  | .nonNumeric => none
  | .num n =>
    match pointsPossible with
    | none => none
    | some p => if p ≤ 0 then none else some (n / p * 100)

end GradeDisplay

namespace GradeResults

/-- Embeds the accumulation loop of `getCategoryDetails` from
`src/frontend/src/components/GradeResults.vue` (lines 368-401): walks the
category's assignment list and accumulates `(totalPoints, totalPossible)`,
adding an assignment's raw score and points possible exactly when the raw
score parses as a number and the points possible (defaulted to 0 when
absent, per `|| 0`) is positive.  `score` and `possible` give each
assignment's cell value and effective points possible. -/
def getCategoryDetails (score : String → CellValue) (possible : String → ℚ) :
    List String → ℚ × ℚ
  | [] => (0, 0)
  | a :: rest =>
    let t := getCategoryDetails score possible rest
    match score a with
    | .num n => if 0 < possible a then (n + t.1, possible a + t.2) else t
    | _ => t

end GradeResults

theorem calculatePercentage_eq_some_iff (value : CellValue) (pointsPossible : Option ℚ)
    (q : ℚ) :
    GradeDisplay.calculatePercentage value pointsPossible = some q ↔
      ∃ n p, value = .num n ∧ pointsPossible = some p ∧ 0 < p ∧ q = n / p * 100 := by
  constructor
  · intro h
    cases value with
    | missing => simp [GradeDisplay.calculatePercentage] at h
    | nonNumeric => simp [GradeDisplay.calculatePercentage] at h
    | num n =>
      cases pointsPossible with
      | none => simp [GradeDisplay.calculatePercentage] at h
      | some p =>
        by_cases hp : p ≤ 0
        · simp [GradeDisplay.calculatePercentage, hp] at h
        · refine ⟨n, p, rfl, rfl, lt_of_not_le hp, ?_⟩
          simp [GradeDisplay.calculatePercentage, hp] at h
          exact h.symm
  · rintro ⟨n, p, rfl, rfl, hp, rfl⟩
    simp [GradeDisplay.calculatePercentage, not_le.mpr hp]

theorem getCategoryDetails_excluded (score : String → CellValue) (possible : String → ℚ)
    (a : String) (rest : List String)
    (h : (∀ n, score a ≠ .num n) ∨ possible a ≤ 0) :
    GradeResults.getCategoryDetails score possible (a :: rest) =
      GradeResults.getCategoryDetails score possible rest := by
  cases h with
  | inl hv =>
    cases hs : score a with
    | missing => simp [GradeResults.getCategoryDetails, hs]
    | nonNumeric => simp [GradeResults.getCategoryDetails, hs]
    | num n => exact absurd hs (hv n)
  | inr hp =>
    cases hs : score a with
    | missing => simp [GradeResults.getCategoryDetails, hs]
    | nonNumeric => simp [GradeResults.getCategoryDetails, hs]
    | num n => simp [GradeResults.getCategoryDetails, hs, not_lt.mpr hp]

theorem getCategoryDetails_included (score : String → CellValue) (possible : String → ℚ)
    (a : String) (rest : List String) (n : ℚ)
    (hs : score a = .num n) (hp : 0 < possible a) :
    GradeResults.getCategoryDetails score possible (a :: rest) =
      (n + (GradeResults.getCategoryDetails score possible rest).1,
       possible a + (GradeResults.getCategoryDetails score possible rest).2) := by
  simp [GradeResults.getCategoryDetails, hs, hp]

/-- Cell values of a small example student used to instantiate the theorems:
`H1` holds a numeric score of 8, every other column is ungraded. -/
def exScore : String → CellValue := fun s => if s = "H1" then .num 8 else .missing

/-- Points possible of the example columns: 10 for `H1`, 20 otherwise. -/
def exPossible : String → ℚ := fun s => if s = "H1" then 10 else 20

/-- C2: an assignment cell yields a percentage `raw / points_possible × 100`
exactly when the raw score is numeric and the points possible are positive;
in every other case the assignment contributes neither points nor possible
points to the category totals (it is excluded, not zeroed). -/
theorem assignment_cell_percentage_and_exclusion
    (score : String → CellValue) (possible : String → ℚ)
    (a : String) (rest : List String) :
    (∀ (value : CellValue) (pointsPossible : Option ℚ) (q : ℚ),
        GradeDisplay.calculatePercentage value pointsPossible = some q ↔
          ∃ n p, value = .num n ∧ pointsPossible = some p ∧ 0 < p ∧ q = n / p * 100)
    ∧ ((∀ n, score a ≠ .num n) ∨ possible a ≤ 0 →
        GradeResults.getCategoryDetails score possible (a :: rest) =
          GradeResults.getCategoryDetails score possible rest)
    ∧ (∀ n, score a = .num n → 0 < possible a →
        GradeResults.getCategoryDetails score possible (a :: rest) =
          (n + (GradeResults.getCategoryDetails score possible rest).1,
           possible a + (GradeResults.getCategoryDetails score possible rest).2)) := by
  refine ⟨fun value pointsPossible q =>
      calculatePercentage_eq_some_iff value pointsPossible q,
    fun h => getCategoryDetails_excluded score possible a rest h,
    fun n hs hp => getCategoryDetails_included score possible a rest n hs hp⟩

/-- Witness for C2 at a concrete input: the ungraded column `H2` is excluded
entirely (it adds nothing, not zero possible points), and `H1` contributes
8 points out of 10. -/
theorem assignment_cell_percentage_and_exclusion_witness :
    GradeResults.getCategoryDetails exScore exPossible ["H2", "H1"] = (8, 10) := by
  rw [(assignment_cell_percentage_and_exclusion exScore exPossible "H2" ["H1"]).2.1
    (Or.inl (by intro n h; simp [exScore] at h))]
  have h := (assignment_cell_percentage_and_exclusion exScore exPossible "H1" []).2.2
    8 (by simp [exScore]) (by simp [exPossible])
  rw [h]
  simp [GradeResults.getCategoryDetails, exPossible]

/-- A grading category as configured in the frontend
(`src/frontend/src/App.vue`, `CategoryManager.vue`). -/
structure Category where
  name : String
  weight : ℚ
  drop_lowest : ℕ
  assignments : List String
  extra_credit : Bool
deriving DecidableEq, Repr

/-- The observable outcome of pressing Calculate: either an error toast is
shown and the request is never sent, or the `/api/calculate` call is issued. -/
inductive CalcAction where
  | error : String → CalcAction
  | calculate : CalcAction
deriving DecidableEq, Repr

namespace App

/-- Embeds `totalWeight` from `src/frontend/src/App.vue` line 455: the sum
of the weights of ALL categories, with no filtering of extra-credit ones. -/
def totalWeight (cats : List Category) : ℚ :=
  (cats.map Category.weight).sum

/-- Embeds `isWeightValid` from `src/frontend/src/App.vue` line 456. -/
def isWeightValid (cats : List Category) : Bool :=
  |totalWeight cats - 100| < 1 / 100

/-- Embeds `hasAssignedCategories` from `src/frontend/src/App.vue` line 459. -/
def hasAssignedCategories (cats : List Category) : Bool :=
  cats.any fun c => !c.assignments.isEmpty

/-- Embeds the guard structure of `calculateGrades` from
`src/frontend/src/App.vue` lines 508-534: an invalid weight total or an
empty category mapping shows an error toast and returns before the
`/api/calculate` request; otherwise the request is issued. -/
def calculateGrades (cats : List Category) : CalcAction :=
  if ¬ isWeightValid cats then
    .error "Category weights must sum to 100% (excluding extra credit)"
  else if ¬ hasAssignedCategories cats then
    .error "Please assign at least one assignment to a category"
  else
    .calculate

end App

namespace CategoryManager

/-- Embeds `totalWeight` from
`src/frontend/src/components/CategoryManager.vue` lines 125-129: the sum of
the weights of the non-extra-credit categories only. -/
def totalWeight (cats : List Category) : ℚ :=
  ((cats.filter fun c => !c.extra_credit).map Category.weight).sum

end CategoryManager

/-- A ninety-percent homework category, used as a failing input for C1. -/
def hwCat : Category := ⟨"HW", 90, 0, ["A1"], false⟩

/-- An extra-credit category carrying weight 10, as in the specification's
extra-credit example (`max_extra_credit_percent` scenario, §8). -/
def ecCat : Category := ⟨"Extra Credit", 10, 0, ["X1"], true⟩

/-- C1 (code bug): on the configuration `[hwCat, ecCat]` the sum of the
non-extra-credit weights is 90, far outside 100 ± 0.01, yet the
`calculateGrades` gate passes — because `App.vue`'s `totalWeight` sums the
extra-credit weight too, even though its own error message reads
"(excluding extra credit)" — and the calculate call is issued. -/
theorem weight_gate_includes_extra_credit :
    CategoryManager.totalWeight [hwCat, ecCat] = 90 ∧
    ¬ (|CategoryManager.totalWeight [hwCat, ecCat] - 100| < 1 / 100) ∧
    App.calculateGrades [hwCat, ecCat] = .calculate := by
  have htot : CategoryManager.totalWeight [hwCat, ecCat] = 90 := by
    norm_num [CategoryManager.totalWeight, hwCat, ecCat, List.filter]
  have happ : App.totalWeight [hwCat, ecCat] = 100 := by
    norm_num [App.totalWeight, hwCat, ecCat]
  refine ⟨htot, by rw [htot]; norm_num, ?_⟩
  have hvalid : App.isWeightValid [hwCat, ecCat] = true := by
    simp [App.isWeightValid, happ]
  have hassigned : App.hasAssignedCategories [hwCat, ecCat] = true := by
    simp [App.hasAssignedCategories, hwCat, ecCat]
  simp [App.calculateGrades, hvalid, hassigned]

namespace CategoryManager

/-- `[...new Set(l)]`: JavaScript `Set` deduplication, keeping the first
occurrence of each element.  `seen` accumulates the elements already kept. -/
def jsSetDedupAux (seen : List String) : List String → List String
  | [] => []
  | a :: l => if a ∈ seen then jsSetDedupAux seen l else a :: jsSetDedupAux (a :: seen) l

/-- `[...new Set(l)]` with no elements seen yet. -/
def jsSetDedup (l : List String) : List String := jsSetDedupAux [] l

/-- The per-category update performed by `assignToCategory`
(`src/frontend/src/components/CategoryManager.vue` lines 215-223, and the
identical update in `src/frontend/src/components/AssignmentMapper.vue`
lines 39-51): the target category receives the assignment (deduplicated),
every other category has it filtered out. -/
def assignUpdate (assignment categoryName : String) (cat : Category) : Category :=
  if cat.name = categoryName then
    { cat with assignments := jsSetDedup (cat.assignments ++ [assignment]) }
  else
    { cat with assignments := cat.assignments.filter fun a => a != assignment }

/-- Embeds `assignToCategory`: maps `assignUpdate` over all categories. -/
def assignToCategory (cats : List Category) (assignment categoryName : String) :
    List Category :=
  cats.map (assignUpdate assignment categoryName)

/-- The per-category update performed by `assignSelectedToCategory`
(`CategoryManager.vue` lines 338-349): the target category receives the
whole selection (deduplicated), every other category has the selected
assignments filtered out. -/
def bulkUpdate (selected : List String) (categoryName : String) (cat : Category) :
    Category :=
  if cat.name = categoryName then
    { cat with assignments := jsSetDedup (cat.assignments ++ selected) }
  else
    { cat with assignments := cat.assignments.filter fun a => !selected.contains a }

/-- Embeds `assignSelectedToCategory`: a falsy category name or an empty
selection leaves the categories unchanged; otherwise `bulkUpdate` is mapped
over all categories. -/
def assignSelectedToCategory (cats : List Category) (selected : List String)
    (categoryName : String) : List Category :=
  if categoryName = "" ∨ selected = [] then cats
  else cats.map (bulkUpdate selected categoryName)

/-- Embeds `removeFromCategory` (`CategoryManager.vue` lines 225-231): the
assignment is filtered out of every category. -/
def removeFromCategory (cats : List Category) (assignment : String) : List Category :=
  cats.map fun cat =>
    { cat with assignments := cat.assignments.filter fun a => a != assignment }

/-- The configuration invariant: any two distinct categories have disjoint
assignment sets, so each assignment belongs to at most one category. -/
def exclusive (cats : List Category) : Prop :=
  cats.Pairwise fun c d => ∀ a ∈ c.assignments, a ∉ d.assignments

instance (cats : List Category) : Decidable (exclusive cats) := by
  unfold exclusive; infer_instance

theorem mem_jsSetDedupAux (a : String) (l : List String) :
    ∀ seen, a ∈ jsSetDedupAux seen l ↔ a ∈ l ∧ a ∉ seen := by
  induction l with
  | nil => intro seen; simp [jsSetDedupAux]
  | cons b l ih =>
    intro seen
    by_cases hb : b ∈ seen
    · rw [jsSetDedupAux, if_pos hb, ih]
      simp only [List.mem_cons]
      constructor
      · rintro ⟨h1, h2⟩
        exact ⟨Or.inr h1, h2⟩
      · rintro ⟨h1 | h1, h2⟩
        · exact absurd hb (h1 ▸ h2)
        · exact ⟨h1, h2⟩
    · rw [jsSetDedupAux, if_neg hb]
      rcases eq_or_ne a b with rfl | hab
      · simp [hb]
      · simp [List.mem_cons, hab, ih]

theorem mem_jsSetDedup (a : String) (l : List String) :
    a ∈ jsSetDedup l ↔ a ∈ l := by
  simp [jsSetDedup, mem_jsSetDedupAux]

theorem assignUpdate_name (assignment categoryName : String) (cat : Category) :
    (assignUpdate assignment categoryName cat).name = cat.name := by
  unfold assignUpdate; split <;> rfl

theorem mem_assignUpdate (a assignment categoryName : String) (cat : Category) :
    a ∈ (assignUpdate assignment categoryName cat).assignments ↔
      if cat.name = categoryName then a ∈ cat.assignments ∨ a = assignment
      else a ∈ cat.assignments ∧ a ≠ assignment := by
  by_cases h : cat.name = categoryName <;>
    simp [assignUpdate, h, mem_jsSetDedup, List.mem_filter]

theorem bulkUpdate_name (selected : List String) (categoryName : String) (cat : Category) :
    (bulkUpdate selected categoryName cat).name = cat.name := by
  unfold bulkUpdate; split <;> rfl

theorem mem_bulkUpdate (a : String) (selected : List String) (categoryName : String)
    (cat : Category) :
    a ∈ (bulkUpdate selected categoryName cat).assignments ↔
      if cat.name = categoryName then a ∈ cat.assignments ∨ a ∈ selected
      else a ∈ cat.assignments ∧ a ∉ selected := by
  by_cases h : cat.name = categoryName <;>
    simp [bulkUpdate, h, mem_jsSetDedup, List.mem_filter]

theorem exclusive_assignToCategory (cats : List Category) (assignment categoryName : String)
    (hnames : (cats.map Category.name).Nodup) (hexcl : exclusive cats) :
    exclusive (assignToCategory cats assignment categoryName) := by
  unfold exclusive assignToCategory
  rw [List.pairwise_map]
  have hpair : cats.Pairwise fun c d => c.name ≠ d.name := List.pairwise_map.mp hnames
  refine (hexcl.and hpair).imp ?_
  rintro c d ⟨hdisj, hne⟩ a ha hb
  rw [mem_assignUpdate] at ha hb
  by_cases hc : c.name = categoryName
  · rw [if_pos hc] at ha
    have hd : ¬ d.name = categoryName := fun h => hne (hc.trans h.symm)
    rw [if_neg hd] at hb
    rcases ha with ha | rfl
    · exact hdisj a ha hb.1
    · exact hb.2 rfl
  · rw [if_neg hc] at ha
    by_cases hd : d.name = categoryName
    · rw [if_pos hd] at hb
      rcases hb with hb | rfl
      · exact hdisj a ha.1 hb
      · exact ha.2 rfl
    · rw [if_neg hd] at hb
      exact hdisj a ha.1 hb.1

theorem exclusive_assignSelectedToCategory (cats : List Category) (selected : List String)
    (categoryName : String) (hnames : (cats.map Category.name).Nodup)
    (hexcl : exclusive cats) :
    exclusive (assignSelectedToCategory cats selected categoryName) := by
  unfold assignSelectedToCategory
  split
  · exact hexcl
  · unfold exclusive
    rw [List.pairwise_map]
    have hpair : cats.Pairwise fun c d => c.name ≠ d.name := List.pairwise_map.mp hnames
    refine (hexcl.and hpair).imp ?_
    rintro c d ⟨hdisj, hne⟩ a ha hb
    rw [mem_bulkUpdate] at ha hb
    by_cases hc : c.name = categoryName
    · rw [if_pos hc] at ha
      have hd : ¬ d.name = categoryName := fun h => hne (hc.trans h.symm)
      rw [if_neg hd] at hb
      rcases ha with ha | ha
      · exact hdisj a ha hb.1
      · exact hb.2 ha
    · rw [if_neg hc] at ha
      by_cases hd : d.name = categoryName
      · rw [if_pos hd] at hb
        rcases hb with hb | hb
        · exact hdisj a ha.1 hb
        · exact ha.2 hb
      · rw [if_neg hd] at hb
        exact hdisj a ha.1 hb.1

theorem exclusive_removeFromCategory (cats : List Category) (assignment : String)
    (hexcl : exclusive cats) :
    exclusive (removeFromCategory cats assignment) := by
  unfold exclusive removeFromCategory
  rw [List.pairwise_map]
  refine hexcl.imp ?_
  intro c d hdisj a ha hb
  simp only [List.mem_filter] at ha hb
  exact hdisj a ha.1 hb.1

theorem assignToCategory_membership (cats : List Category) (assignment categoryName : String) :
    ∀ cat ∈ assignToCategory cats assignment categoryName,
      (cat.name = categoryName → assignment ∈ cat.assignments) ∧
      (cat.name ≠ categoryName → assignment ∉ cat.assignments) := by
  intro cat hcat
  obtain ⟨c0, _, rfl⟩ := List.mem_map.mp hcat
  rw [assignUpdate_name]
  constructor
  · intro hname
    rw [mem_assignUpdate, if_pos hname]
    exact Or.inr rfl
  · intro hname
    rw [mem_assignUpdate, if_neg hname]
    rintro ⟨-, h⟩
    exact h rfl

theorem assignSelectedToCategory_membership (cats : List Category) (selected : List String)
    (categoryName : String) (hC : categoryName ≠ "") (hsel : selected ≠ []) :
    ∀ cat ∈ assignSelectedToCategory cats selected categoryName, ∀ a ∈ selected,
      (cat.name = categoryName → a ∈ cat.assignments) ∧
      (cat.name ≠ categoryName → a ∉ cat.assignments) := by
  intro cat hcat a hasel
  rw [assignSelectedToCategory, if_neg (by simp [hC, hsel])] at hcat
  obtain ⟨c0, _, rfl⟩ := List.mem_map.mp hcat
  rw [bulkUpdate_name]
  constructor
  · intro hname
    rw [mem_bulkUpdate, if_pos hname]
    exact Or.inr hasel
  · intro hname
    rw [mem_bulkUpdate, if_neg hname]
    rintro ⟨-, h⟩
    exact h hasel

theorem removeFromCategory_membership (cats : List Category) (assignment : String) :
    ∀ cat ∈ removeFromCategory cats assignment, assignment ∉ cat.assignments := by
  intro cat hcat
  obtain ⟨c0, _, rfl⟩ := List.mem_map.mp hcat
  simp [List.mem_filter]

end CategoryManager

/-- C9: every category-mapping operation keeps each assignment in at most
one category.  After assigning an assignment to a category it is a member
of every category of that name and of no other category; bulk assignment
does the same for each selected assignment; removal takes the assignment
out of every category; and all three operations preserve the mutual
exclusivity invariant (given that category names are unique, as the data
model requires). -/
theorem category_mapping_mutual_exclusivity
    (cats : List Category) (assignment categoryName : String) (selected : List String)
    (hnames : (cats.map Category.name).Nodup) (hexcl : CategoryManager.exclusive cats) :
    (∀ cat ∈ CategoryManager.assignToCategory cats assignment categoryName,
        (cat.name = categoryName → assignment ∈ cat.assignments) ∧
        (cat.name ≠ categoryName → assignment ∉ cat.assignments))
    ∧ CategoryManager.exclusive (CategoryManager.assignToCategory cats assignment categoryName)
    ∧ (categoryName ≠ "" → selected ≠ [] →
        ∀ cat ∈ CategoryManager.assignSelectedToCategory cats selected categoryName,
          ∀ a ∈ selected,
            (cat.name = categoryName → a ∈ cat.assignments) ∧
            (cat.name ≠ categoryName → a ∉ cat.assignments))
    ∧ CategoryManager.exclusive (CategoryManager.assignSelectedToCategory cats selected categoryName)
    ∧ (∀ cat ∈ CategoryManager.removeFromCategory cats assignment, assignment ∉ cat.assignments)
    ∧ CategoryManager.exclusive (CategoryManager.removeFromCategory cats assignment) :=
  ⟨CategoryManager.assignToCategory_membership cats assignment categoryName,
   CategoryManager.exclusive_assignToCategory cats assignment categoryName hnames hexcl,
   fun hC hsel =>
     CategoryManager.assignSelectedToCategory_membership cats selected categoryName hC hsel,
   CategoryManager.exclusive_assignSelectedToCategory cats selected categoryName hnames hexcl,
   CategoryManager.removeFromCategory_membership cats assignment,
   CategoryManager.exclusive_removeFromCategory cats assignment hexcl⟩

/-- A homework category holding `H1`, for instantiating C9. -/
def hwBase : Category := ⟨"HW", 40, 1, ["H1"], false⟩

/-- An exam category holding `E1`, for instantiating C9. -/
def examBase : Category := ⟨"Exam", 60, 0, ["E1"], false⟩

/-- Witness for C9 at a concrete input: assigning `Q1` to `HW` in a
two-category configuration puts `Q1` in `HW` only and keeps the categories
mutually exclusive. -/
theorem category_mapping_mutual_exclusivity_witness :
    (∀ cat ∈ CategoryManager.assignToCategory [hwBase, examBase] "Q1" "HW",
        (cat.name = "HW" → "Q1" ∈ cat.assignments) ∧
        (cat.name ≠ "HW" → "Q1" ∉ cat.assignments))
    ∧ CategoryManager.exclusive
        (CategoryManager.assignToCategory [hwBase, examBase] "Q1" "HW") := by
  have h := category_mapping_mutual_exclusivity [hwBase, examBase] "Q1" "HW" ["Q2"]
    (by decide) (by decide)
  exact ⟨h.1, h.2.1⟩

/-- One row of the calculated results as `GradeResults.vue` maps the API
response: the final percentage and the letter grade (absent when the
backend supplied none, which the source treats as falsy). -/
structure StudentResult where
  final_percentage : ℚ
  letter_grade : Option String
deriving DecidableEq, Repr

namespace GradeResults

/-- Embeds `classAverage` (`GradeResults.vue` lines 67-71): 0 for an empty
list, otherwise the sum of the final percentages over the count. -/
def classAverage (students : List StudentResult) : ℚ :=
  if students.length = 0 then 0
  else (students.map fun s => s.final_percentage).sum / students.length

/-- Stable insertion of a student into a list sorted ascending by final
percentage: ties keep the earlier element first, as JavaScript's stable
`Array.sort` does with the numeric comparator. -/
def insertAsc (s : StudentResult) : List StudentResult → List StudentResult
  | [] => [s]
  | t :: l =>
    if s.final_percentage ≤ t.final_percentage then s :: t :: l else t :: insertAsc s l

/-- Stable ascending sort by final percentage, embedding
`[...students].sort((a, b) => a.final_percentage - b.final_percentage)`. -/
def sortAsc : List StudentResult → List StudentResult
  | [] => []
  | s :: l => insertAsc s (sortAsc l)

/-- Embeds `classMedian` (`GradeResults.vue` lines 73-81): 0 for an empty
list; otherwise the middle element of the sorted list, or the mean of the
two middle elements for an even count (out-of-range accesses default to 0,
per `?. ... || 0`). -/
def classMedian (students : List StudentResult) : ℚ :=
  if students.length = 0 then 0
  else
    let sorted := sortAsc students
    let mid := students.length / 2
    if students.length % 2 = 0 then
      (((sorted.get? (mid - 1)).map fun s => s.final_percentage).getD 0 +
       ((sorted.get? mid).map fun s => s.final_percentage).getD 0) / 2
    else ((sorted.get? mid).map fun s => s.final_percentage).getD 0

/-- `gradeCounts[g] = (gradeCounts[g] || 0) + 1` on a JavaScript object:
increment the count of `g` in an insertion-ordered association list,
appending a fresh entry when `g` is not yet a key. -/
def bump (g : String) : List (String × ℕ) → List (String × ℕ)
  | [] => [(g, 1)]
  | (h, c) :: rest => if h = g then (h, c + 1) :: rest else (h, c) :: bump g rest

/-- The `gradeCounts` object of `classMode` (`GradeResults.vue` lines
85-90): students are scanned in order and each truthy letter grade is
counted; `Object.entries` later yields the entries in this first-occurrence
insertion order. -/
def gradeCounts (students : List StudentResult) : List (String × ℕ) :=
  students.foldl
    (fun acc s =>
      match s.letter_grade with
      | some g => bump g acc
      | none => acc)
    []

/-- The selection loop of `classMode` (`GradeResults.vue` lines 91-98):
starting from `maxCount = 0`, `mode = "N/A"`, an entry replaces the current
mode only when its count is strictly greater than the running maximum. -/
def modeLoop : List (String × ℕ) → ℕ → String → String
  | [], _, mode => mode
  | (g, c) :: rest, maxCount, mode =>
    if maxCount < c then modeLoop rest c g else modeLoop rest maxCount mode

/-- Embeds `classMode` (`GradeResults.vue` lines 83-100). -/
def classMode (students : List StudentResult) : String :=
  if students.length = 0 then "N/A" else modeLoop (gradeCounts students) 0 "N/A"

/-- Embeds `standardDeviation` (`GradeResults.vue` lines 102-108): 0 for at
most one student, otherwise the square root of the population variance of
the final percentages.  `Math.sqrt` is a primitive on floating-point
numbers; it is abstracted here as an arbitrary function `sqrtFn`, which the
source applies only after the guard. -/
def standardDeviation (sqrtFn : ℚ → ℚ) (students : List StudentResult) : ℚ :=
  if students.length ≤ 1 then 0
  else
    sqrtFn (((students.map fun s => (s.final_percentage - classAverage students) ^ 2).sum) /
      students.length)

/-- Embeds the passing stat filter (`GradeResults.vue` line 541):
`students.filter(s => s.final_percentage >= passingThreshold).length`; the
same `>=` test appears in `getGradeTooltip` (line 295). -/
def passingCount (students : List StudentResult) (passingThreshold : ℚ) : ℕ :=
  (students.filter fun s => decide (passingThreshold ≤ s.final_percentage)).length

/-- Embeds the failing stat filter (`GradeResults.vue` line 546):
`students.filter(s => s.final_percentage < passingThreshold).length`. -/
def failingCount (students : List StudentResult) (passingThreshold : ℚ) : ℕ :=
  (students.filter fun s => decide (s.final_percentage < passingThreshold)).length

theorem modeLoop_skips_le (l : List (String × ℕ)) :
    ∀ (maxCount : ℕ) (mode : String), (∀ p ∈ l, p.2 ≤ maxCount) →
      modeLoop l maxCount mode = mode := by
  induction l with
  | nil => intro maxCount mode _; rfl
  | cons p rest ih =>
    intro maxCount mode hle
    obtain ⟨g, c⟩ := p
    rw [modeLoop, if_neg (not_lt.mpr (hle (g, c) (List.mem_cons_self _ _)))]
    exact ih maxCount mode fun q hq => hle q (List.mem_cons_of_mem _ hq)

theorem modeLoop_first_max (post : List (String × ℕ)) (g : String) (c : ℕ)
    (hpost : ∀ p ∈ post, p.2 ≤ c) :
    ∀ (pre : List (String × ℕ)) (maxCount : ℕ) (mode : String), maxCount < c →
      (∀ p ∈ pre, p.2 < c) →
      modeLoop (pre ++ (g, c) :: post) maxCount mode = g := by
  intro pre
  induction pre with
  | nil =>
    intro maxCount mode hmax _
    rw [List.nil_append, modeLoop, if_pos hmax]
    exact modeLoop_skips_le post c g hpost
  | cons p rest ih =>
    intro maxCount mode hmax hpre
    obtain ⟨h, c0⟩ := p
    have hc0 : c0 < c := hpre (h, c0) (List.mem_cons_self _ _)
    have hrest : ∀ p ∈ rest, p.2 < c := fun q hq => hpre q (List.mem_cons_of_mem _ hq)
    rw [List.cons_append, modeLoop]
    split
    · exact ih c0 h hc0 hrest
    · exact ih maxCount mode hmax hrest

end GradeResults

/-- C7: for an empty student list every class summary statistic is defined
without division by zero: mean, median and standard deviation (for any
square-root function) are 0 and the mode is the "no data" value `N/A`. -/
theorem empty_class_statistics_safe :
    GradeResults.classAverage [] = 0 ∧
    GradeResults.classMedian [] = 0 ∧
    (∀ sqrtFn : ℚ → ℚ, GradeResults.standardDeviation sqrtFn [] = 0) ∧
    GradeResults.classMode [] = "N/A" :=
  ⟨rfl, rfl, fun _ => rfl, rfl⟩

/-- C8: when the grade counts take the shape `pre ++ (g, c) :: post` with
every earlier entry strictly below `c` and every later entry at most `c`
(so `g` is the first-encountered grade attaining the maximum count), the
mode is `g`: the strict greater-than comparison never lets a later tie
displace the earlier maximum. -/
theorem class_mode_first_encountered_max
    (students : List StudentResult) (pre post : List (String × ℕ)) (g : String) (c : ℕ)
    (hne : students ≠ [])
    (hcounts : GradeResults.gradeCounts students = pre ++ (g, c) :: post)
    (hc : 0 < c)
    (hpre : ∀ p ∈ pre, p.2 < c)
    (hpost : ∀ p ∈ post, p.2 ≤ c) :
    GradeResults.classMode students = g := by
  rw [GradeResults.classMode, if_neg (by simpa [List.length_eq_zero] using hne), hcounts]
  exact GradeResults.modeLoop_first_max post g c hpost pre 0 "N/A" hc hpre

/-- Witness for C8 at a concrete input: with grades A, B, A, B the counts
are tied at 2 and the mode is the first-encountered grade A. -/
theorem class_mode_first_encountered_max_witness :
    GradeResults.classMode
      [⟨95, some "A"⟩, ⟨85, some "B"⟩, ⟨93, some "A"⟩, ⟨84, some "B"⟩] = "A" := by
  refine class_mode_first_encountered_max _ [] [("B", 2)] "A" 2
    (List.cons_ne_nil _ _) ?_ (by decide) (by decide) (by decide)
  decide

/-- C10: the passing and failing counters partition the students: a final
percentage equal to the threshold passes (the passing test is `≥`, the
failing test is `<`), the two counts sum to the number of students, and no
student satisfies both tests. -/
theorem passing_failing_partition (students : List StudentResult) (passingThreshold : ℚ) :
    GradeResults.passingCount students passingThreshold +
        GradeResults.failingCount students passingThreshold = students.length
    ∧ (∀ s ∈ students,
        ¬ (passingThreshold ≤ s.final_percentage ∧ s.final_percentage < passingThreshold))
    ∧ (∀ s ∈ students, s.final_percentage = passingThreshold →
        s ∈ students.filter fun s => decide (passingThreshold ≤ s.final_percentage)) := by
  refine ⟨?_, ?_, ?_⟩
  · induction students with
    | nil => rfl
    | cons s l ih =>
      unfold GradeResults.passingCount GradeResults.failingCount at ih ⊢
      by_cases h : passingThreshold ≤ s.final_percentage
      · rw [List.filter_cons_of_pos (by simpa using h),
          List.filter_cons_of_neg (by simpa using not_lt.mpr h)]
        simp only [List.length_cons]
        omega
      · rw [List.filter_cons_of_neg (by simpa using h),
          List.filter_cons_of_pos (by simpa using not_le.mp h)]
        simp only [List.length_cons]
        omega
  · intro s _ ⟨h1, h2⟩
    exact absurd h1 (not_le.mpr h2)
  · intro s hs heq
    rw [List.mem_filter]
    refine ⟨hs, ?_⟩
    rw [heq]
    exact decide_eq_true le_rfl

/-- Witness for C10 at a concrete input: with threshold 70, a student at
exactly 70 passes and one at 69 fails; the counts 1 + 1 partition the
class of two. -/
theorem passing_failing_partition_witness :
    GradeResults.passingCount [⟨70, some "C"⟩, ⟨69, some "D"⟩] 70 +
      GradeResults.failingCount [⟨70, some "C"⟩, ⟨69, some "D"⟩] 70 = 2 := by
  have h := (passing_failing_partition [⟨70, some "C"⟩, ⟨69, some "D"⟩] 70).1
  simpa using h

namespace Engine

/-- Modelled from the spec: one gradable assignment of one student in the
missing backend engine (`app/services/grading.py` is not in the source
tree) — the raw score paired with the points possible. -/
abbrev Item : Type := ℚ × ℚ

/-- Modelled from the spec: an assignment's percentage,
`raw_score / points_possible × 100` (§4.1 item 1). -/
def pct (x : Item) : ℚ := x.1 / x.2 * 100

/-- Modelled from the spec: the descending-threshold insertion step of the
grading-scale sort: a grade is placed before the first grade whose
threshold is at most its own, so the sort is stable like JavaScript's
`Array.sort`. -/
def insertDesc (p : String × ℚ) : List (String × ℚ) → List (String × ℚ)
  | [] => [p]
  | q :: l => if q.2 ≤ p.2 then p :: q :: l else q :: insertDesc p l

/-- Embeds `sortedGrades` from
`src/frontend/src/components/GradingScale.vue` lines 38-42 (also the order
in which the spec's engine scans thresholds): the scale entries sorted by
descending threshold. -/
def sortedGrades : List (String × ℚ) → List (String × ℚ)
  | [] => []
  | p :: l => insertDesc p (sortedGrades l)

/-- Modelled from the spec: the letter-grade mapping of the missing backend
(`app/services/grading.py`): scan the thresholds in descending order and
return the first letter whose threshold is at most the final percentage
(§4.2). -/
def letterGrade (scale : List (String × ℚ)) (finalPercentage : ℚ) : Option String :=
  ((sortedGrades scale).find? fun gt => decide (gt.2 ≤ finalPercentage)).map fun gt => gt.1

theorem mem_insertDesc (a p : String × ℚ) (l : List (String × ℚ)) :
    a ∈ insertDesc p l ↔ a = p ∨ a ∈ l := by
  induction l with
  | nil => simp [insertDesc]
  | cons q l ih =>
    rw [insertDesc]
    split
    · simp
    · simp only [List.mem_cons, ih]
      tauto

theorem mem_sortedGrades (a : String × ℚ) (scale : List (String × ℚ)) :
    a ∈ sortedGrades scale ↔ a ∈ scale := by
  induction scale with
  | nil => simp [sortedGrades]
  | cons p l ih => simp [sortedGrades, mem_insertDesc, ih]

theorem find?_eq_some_of_unique {α : Type} (p : α → Bool) (a : α) :
    ∀ l : List α, a ∈ l → p a = true → (∀ b ∈ l, p b = true → b = a) →
      l.find? p = some a := by
  intro l
  induction l with
  | nil => intro h; cases h
  | cons x l ih =>
    intro hmem hpa huniq
    by_cases hx : p x = true
    · rw [List.find?_cons_of_pos _ hx, huniq x (List.mem_cons_self _ _) hx]
    · rw [List.find?_cons_of_neg _ hx]
      rcases List.mem_cons.mp hmem with rfl | hmem2
      · exact absurd hpa hx
      · exact ih hmem2 hpa fun b hb => huniq b (List.mem_cons_of_mem _ hb)

end Engine

/-- The three-letter scale of the claim: A at 90, B at 80, F at 0. -/
def scaleABF : List (String × ℚ) := [("A", 90), ("B", 80), ("F", 0)]

/-- C3: letter assignment scans the thresholds in descending order and
returns the first letter whose threshold is at most the final percentage:
for the scale A:90, B:80, F:0 a final of exactly 90 maps to A, 89.99 maps
to B and 0 maps to F; and in general, a percentage at or above the bottom
grade's threshold but strictly below every other threshold resolves to the
bottom grade. -/
theorem letter_grade_descending_scan :
    Engine.letterGrade scaleABF 90 = some "A"
    ∧ Engine.letterGrade scaleABF (89.99 : ℚ) = some "B"
    ∧ Engine.letterGrade scaleABF 0 = some "F"
    ∧ (∀ (scale : List (String × ℚ)) (finalPercentage : ℚ) (bl : String) (bt : ℚ),
        (bl, bt) ∈ scale → bt ≤ finalPercentage →
        (∀ p ∈ scale, p ≠ (bl, bt) → finalPercentage < p.2) →
        Engine.letterGrade scale finalPercentage = some bl) := by
  refine ⟨?_, ?_, ?_, ?_⟩
  · norm_num [Engine.letterGrade, Engine.sortedGrades, Engine.insertDesc, List.find?]
  · norm_num [Engine.letterGrade, Engine.sortedGrades, Engine.insertDesc, List.find?,
      scaleABF]
  · norm_num [Engine.letterGrade, Engine.sortedGrades, Engine.insertDesc, List.find?]
  · intro scale finalPercentage bl bt hmem hbt hothers
    rw [Engine.letterGrade,
      Engine.find?_eq_some_of_unique _ (bl, bt) (Engine.sortedGrades scale)
        ((Engine.mem_sortedGrades _ _).mpr hmem) (decide_eq_true hbt) ?_]
    · rfl
    · intro b hb hpb
      by_contra hne
      exact absurd (of_decide_eq_true hpb)
        (not_le.mpr (hothers b ((Engine.mem_sortedGrades _ _).mp hb) hne))

/-- Witness for the general clause of C3: a final percentage of 50 on the
A/B/F scale is below the A and B thresholds and resolves to the bottom
grade F. -/
theorem letter_grade_descending_scan_witness :
    Engine.letterGrade scaleABF 50 = some "F" := by
  refine letter_grade_descending_scan.2.2.2 scaleABF 50 "F" 0 (by simp [scaleABF])
    (by norm_num) ?_
  intro p hp hne
  rcases (by simpa [scaleABF] using hp : p = ("A", (90 : ℚ)) ∨ p = ("B", (80 : ℚ)) ∨
      p = ("F", (0 : ℚ))) with rfl | rfl | rfl
  · norm_num
  · norm_num
  · exact absurd rfl hne

namespace Engine

/-- Modelled from the spec: the base final percentage of the missing
backend engine, `Σ over non-extra-credit categories of
category_score × weight / 100` (§4.2); `categoryScores` maps a category
name to that student's score in it. -/
def baseFinal (cats : List Category) (categoryScores : String → ℚ) : ℚ :=
  ((cats.filter fun c => !c.extra_credit).map
    fun c => categoryScores c.name * c.weight / 100).sum

/-- Modelled from the spec: the raw extra-credit contribution,
`Σ over extra-credit categories of category_score × weight / 100` (§4.2),
before the cap is applied. -/
def extraRaw (cats : List Category) (categoryScores : String → ℚ) : ℚ :=
  ((cats.filter fun c => c.extra_credit).map
    fun c => categoryScores c.name * c.weight / 100).sum

/-- Modelled from the spec: the final percentage of the missing backend
engine — the base final plus the extra-credit contribution clamped to
`max_extra_credit_percent`; the base is not pre-clamped (§4.2). -/
def finalPercentage (cats : List Category) (categoryScores : String → ℚ)
    (maxExtraCreditPercent : ℚ) : ℚ :=
  baseFinal cats categoryScores +
    min (extraRaw cats categoryScores) maxExtraCreditPercent

end Engine

namespace GradingScale

/-- Embeds `maxPossibleScore` from `GradingScale.vue` (and
`src/unnamed/part_005` lines 65-67): with extra credit enabled the maximum
attainable score shown to the user is `100 + maxExtraCreditPercent`,
otherwise 100. -/
def maxPossibleScore (extraCreditEnabled : Bool) (maxExtraCreditPercent : ℚ) : ℚ :=
  if extraCreditEnabled then 100 + maxExtraCreditPercent else 100

end GradingScale

/-- C4: the extra-credit contribution is clamped to
`max_extra_credit_percent` before being added: a raw contribution of 20
under a cap of 5 adds exactly 5 to the base final, the final never exceeds
the base by more than the cap, and (for a base within 100) the combined
total stays within the advertised maximum possible score `100 + cap`. -/
theorem extra_credit_contribution_capped (cats : List Category)
    (categoryScores : String → ℚ) (cap : ℚ) :
    (Engine.extraRaw cats categoryScores = 20 → cap = 5 →
      Engine.finalPercentage cats categoryScores cap =
        Engine.baseFinal cats categoryScores + 5)
    ∧ Engine.finalPercentage cats categoryScores cap ≤
        Engine.baseFinal cats categoryScores + cap
    ∧ (Engine.baseFinal cats categoryScores ≤ 100 →
        Engine.finalPercentage cats categoryScores cap ≤
          GradingScale.maxPossibleScore true cap) := by
  refine ⟨?_, ?_, ?_⟩
  · intro hraw hcap
    rw [Engine.finalPercentage, hraw, hcap]
    norm_num
  · exact add_le_add_left (min_le_right _ _) _
  · intro hbase
    rw [GradingScale.maxPossibleScore]
    simp only [if_pos rfl]
    exact add_le_add hbase (min_le_right _ _)

/-- A one-category base configuration worth the whole 100%, used to
instantiate C4. -/
def hwFull : Category := ⟨"HW", 100, 0, ["H1"], false⟩

/-- Example category scores for C4: 200% in the weight-10 extra-credit
category (raw contribution 20) and 80% in homework. -/
def exScores : String → ℚ := fun n => if n = "Extra Credit" then 200 else 80

/-- Witness for C4 at a concrete input: with the extra-credit category
scoring 200% at weight 10 (raw contribution 20) and a cap of 5, the final
is the 80% base plus exactly 5. -/
theorem extra_credit_contribution_capped_witness :
    Engine.finalPercentage [hwFull, ecCat] exScores 5 = 85 := by
  have hne : ("HW" : String) ≠ "Extra Credit" := by decide
  have h := (extra_credit_contribution_capped [hwFull, ecCat] exScores 5).1
    (by norm_num [Engine.extraRaw, hwFull, ecCat, exScores, List.filter]) rfl
  rw [h]
  norm_num [Engine.baseFinal, hwFull, ecCat, exScores, List.filter, hne]

namespace Engine

/-- Modelled from the spec: the lowest percentage in a student's working
set of gradable assignments (0 for an empty set, never consulted there). -/
def listMinPct : List Item → ℚ
  | [] => 0
  | [x] => pct x
  | x :: y :: l => min (pct x) (listMinPct (y :: l))

/-- Modelled from the spec: remove the first assignment whose percentage
equals `p` — ties at the drop boundary are dropped in assignment-list
order, first-encountered first (§4.1 item 3). -/
def removeFirstWithPct (p : ℚ) : List Item → List Item
  | [] => []
  | x :: l => if pct x = p then l else x :: removeFirstWithPct p l

/-- Modelled from the spec: one drop step — remove the first-encountered
assignment attaining the lowest percentage. -/
def removeFirstMin (l : List Item) : List Item :=
  removeFirstWithPct (listMinPct l) l

/-- Modelled from the spec: remove the `n` lowest-percentage assignments,
ascending, from the working set (§4.1 item 3). -/
def dropLowestN : ℕ → List Item → List Item
  | 0, l => l
  | n + 1, l => dropLowestN n (removeFirstMin l)

/-- The sum of the remaining raw scores (§4.1 item 4). -/
def sumRaw (l : List Item) : ℚ := (l.map fun x => x.1).sum

/-- The sum of the remaining points possible (§4.1 item 4). -/
def sumPossible (l : List Item) : ℚ := (l.map fun x => x.2).sum

/-- Modelled from the spec: the category percentage of the missing backend
engine — after dropping `N = min(drop_lowest, k − 1)` lowest assignments,
the remaining raw points over the remaining possible points times 100; a
student with no gradable assignment in the category scores 0 (§4.1 items
3-4). -/
def categoryScore (dropCount : ℕ) (items : List Item) : ℚ :=
  if items = [] then 0
  else
    sumRaw (dropLowestN (min dropCount (items.length - 1)) items) /
      sumPossible (dropLowestN (min dropCount (items.length - 1)) items) * 100

theorem exists_pct_eq_listMinPct : ∀ l : List Item, l ≠ [] → ∃ x ∈ l, pct x = listMinPct l := by
  intro l
  induction l with
  | nil => intro h; exact absurd rfl h
  | cons x l ih =>
    intro _
    cases l with
    | nil => exact ⟨x, List.mem_cons_self _ _, rfl⟩
    | cons y l2 =>
      rcases le_total (pct x) (listMinPct (y :: l2)) with h | h
      · exact ⟨x, List.mem_cons_self _ _, (min_eq_left h).symm⟩
      · obtain ⟨z, hz, hpz⟩ := ih (List.cons_ne_nil _ _)
        exact ⟨z, List.mem_cons_of_mem _ hz, hpz.trans (min_eq_right h).symm⟩

theorem length_removeFirstWithPct (p : ℚ) :
    ∀ l : List Item, (∃ x ∈ l, pct x = p) → (removeFirstWithPct p l).length + 1 = l.length := by
  intro l
  induction l with
  | nil => rintro ⟨x, hx, -⟩; cases hx
  | cons x l ih =>
    rintro ⟨z, hz, hpz⟩
    by_cases hx : pct x = p
    · rw [removeFirstWithPct, if_pos hx]
      exact (List.length_cons _ _).symm
    · rw [removeFirstWithPct, if_neg hx, List.length_cons, List.length_cons]
      rcases List.mem_cons.mp hz with rfl | hz2
      · exact absurd hpz hx
      · rw [ih ⟨z, hz2, hpz⟩]

theorem sublist_removeFirstWithPct (p : ℚ) :
    ∀ l : List Item, List.Sublist (removeFirstWithPct p l) l := by
  intro l
  induction l with
  | nil => exact List.Sublist.refl _
  | cons x l ih =>
    rw [removeFirstWithPct]
    split
    · exact List.sublist_cons_self _ _
    · exact ih.cons₂ x

theorem length_dropLowestN :
    ∀ (n : ℕ) (l : List Item), n < l.length → (dropLowestN n l).length = l.length - n := by
  intro n
  induction n with
  | zero => intro l _; simp [dropLowestN]
  | succ n ih =>
    intro l hlt
    have hne : l ≠ [] := by
      intro h
      rw [h] at hlt
      exact absurd hlt (by simp)
    have hrem : (removeFirstMin l).length + 1 = l.length :=
      length_removeFirstWithPct _ l (exists_pct_eq_listMinPct l hne)
    rw [dropLowestN, ih (removeFirstMin l) (by omega)]
    omega

theorem sublist_dropLowestN :
    ∀ (n : ℕ) (l : List Item), List.Sublist (dropLowestN n l) l := by
  intro n
  induction n with
  | zero => intro l; exact List.Sublist.refl _
  | succ n ih =>
    intro l
    exact (ih (removeFirstMin l)).trans (sublist_removeFirstWithPct _ l)

theorem sumPossible_pos (l : List Item) (hne : l ≠ []) (hpos : ∀ x ∈ l, 0 < x.2) :
    0 < sumPossible l := by
  refine List.sum_pos _ ?_ (by simpa using hne)
  intro q hq
  obtain ⟨x, hx, rfl⟩ := List.mem_map.mp hq
  exact hpos x hx

end Engine

/-- C5: for `k ≥ 1` gradable assignments and `drop_lowest = d`, exactly
`min(d, k − 1)` assignments are dropped, so at least one remains, its
possible-points sum is positive (every gradable assignment has positive
points possible), and the division in the category percentage is never a
division by zero; a category with no gradable assignment scores 0. -/
theorem drop_lowest_never_empties (dropCount : ℕ) (items : List Engine.Item) :
    (items ≠ [] →
      (Engine.dropLowestN (min dropCount (items.length - 1)) items).length
          = items.length - min dropCount (items.length - 1)
      ∧ Engine.dropLowestN (min dropCount (items.length - 1)) items ≠ []
      ∧ ((∀ x ∈ items, 0 < x.2) →
          0 < Engine.sumPossible (Engine.dropLowestN (min dropCount (items.length - 1)) items)))
    ∧ Engine.categoryScore dropCount [] = 0 := by
  constructor
  · intro hne
    have hk : 1 ≤ items.length := by
      cases items with
      | nil => exact absurd rfl hne
      | cons x l => simp
    have hlt : min dropCount (items.length - 1) < items.length := by omega
    have hlen := Engine.length_dropLowestN (min dropCount (items.length - 1)) items hlt
    have hrne : Engine.dropLowestN (min dropCount (items.length - 1)) items ≠ [] := by
      intro h
      rw [h] at hlen
      simp at hlen
      omega
    refine ⟨hlen, hrne, fun hpos => ?_⟩
    refine Engine.sumPossible_pos _ hrne ?_
    intro x hx
    exact hpos x ((Engine.sublist_dropLowestN _ items).subset hx)
  · rfl

/-- A two-assignment working set (8/10 and 9/10) for instantiating C5. -/
def itemsW : List Engine.Item := [(8, 10), (9, 10)]

/-- Witness for C5 at a concrete input: with two gradable assignments and
`drop_lowest = 5`, only one assignment is dropped, one remains, and the
remaining possible-points sum is positive. -/
theorem drop_lowest_never_empties_witness :
    (Engine.dropLowestN (min 5 (itemsW.length - 1)) itemsW).length = 1
    ∧ 0 < Engine.sumPossible (Engine.dropLowestN (min 5 (itemsW.length - 1)) itemsW) := by
  have h := (drop_lowest_never_empties 5 itemsW).1 (by simp [itemsW])
  refine ⟨by simpa [itemsW] using h.1, h.2.2 ?_⟩
  intro x hx
  rcases (by simpa [itemsW] using hx : x = ((8 : ℚ), (10 : ℚ)) ∨ x = (9, 10)) with rfl | rfl
  · norm_num
  · norm_num

namespace Engine

/-- Modelled from the spec: the rule's target assignments inside a
student's working set — entries are tagged with whether the replacement
rule under consideration targets them (§4.1 item 2). -/
def targetItems (l : List (Item × Bool)) : List Item :=
  (l.filter fun x => x.2).map fun x => x.1

/-- Modelled from the spec: substitute the first-encountered target whose
percentage equals `p` (the lowest target) with the replacer's raw and
possible points; everything else is untouched (§4.1 item 2). -/
def substituteLowestTarget (r : Item) (p : ℚ) : List (Item × Bool) → List (Item × Bool)
  | [] => []
  | x :: l =>
    if x.2 = true ∧ pct x.1 = p then (r, x.2) :: l
    else x :: substituteLowestTarget r p l

/-- Modelled from the spec: apply one replacement rule to a student's
working set — when the rule has targets and the replacer's percentage is
strictly greater than the lowest target's percentage, that single lowest
target's raw and possible points are replaced with the replacer's;
otherwise the working set is unchanged (§4.1 item 2). -/
def applyRule (r : Item) (l : List (Item × Bool)) : List Item :=
  if targetItems l = [] then l.map fun x => x.1
  else if listMinPct (targetItems l) < pct r then
    (substituteLowestTarget r (listMinPct (targetItems l)) l).map fun x => x.1
  else l.map fun x => x.1

theorem exists_lowest_target (l : List (Item × Bool)) (ht : targetItems l ≠ []) :
    ∃ x ∈ l, x.2 = true ∧ pct x.1 = listMinPct (targetItems l) := by
  obtain ⟨ti, hti, hpti⟩ := exists_pct_eq_listMinPct (targetItems l) ht
  obtain ⟨x, hx, rfl⟩ := List.mem_map.mp hti
  have hx2 := List.mem_filter.mp hx
  exact ⟨x, hx2.1, hx2.2, hpti⟩

theorem substituteLowestTarget_eq (r : Item) (p : ℚ) :
    ∀ l : List (Item × Bool),
      ((∀ x ∈ l, ¬ (x.2 = true ∧ pct x.1 = p)) ∧ substituteLowestTarget r p l = l)
      ∨ ∃ l₁ x l₂, l = l₁ ++ x :: l₂ ∧ x.2 = true ∧ pct x.1 = p ∧
          substituteLowestTarget r p l = l₁ ++ (r, x.2) :: l₂ := by
  intro l
  induction l with
  | nil => exact Or.inl ⟨by simp, rfl⟩
  | cons y l ih =>
    by_cases hy : y.2 = true ∧ pct y.1 = p
    · refine Or.inr ⟨[], y, l, rfl, hy.1, hy.2, ?_⟩
      rw [substituteLowestTarget, if_pos hy]
      rfl
    · rcases ih with ⟨hnone, heq⟩ | ⟨l₁, x, l₂, hl, hflag, hpct, hsub⟩
      · refine Or.inl ⟨?_, by rw [substituteLowestTarget, if_neg hy, heq]⟩
        intro x hx
        rcases List.mem_cons.mp hx with rfl | hx2
        · exact hy
        · exact hnone x hx2
      · refine Or.inr ⟨y :: l₁, x, l₂, by rw [hl, List.cons_append], hflag, hpct, ?_⟩
        rw [substituteLowestTarget, if_neg hy, hsub, List.cons_append]

theorem applyRule_cases (r : Item) (l : List (Item × Bool)) :
    applyRule r l = l.map (fun x => x.1)
    ∨ ∃ l₁ x l₂, l = l₁ ++ x :: l₂ ∧ x.2 = true
        ∧ pct x.1 = listMinPct (targetItems l)
        ∧ listMinPct (targetItems l) < pct r
        ∧ applyRule r l = l₁.map (fun y => y.1) ++ r :: l₂.map fun y => y.1 := by
  by_cases ht : targetItems l = []
  · exact Or.inl (by rw [applyRule, if_pos ht])
  · by_cases hlt : listMinPct (targetItems l) < pct r
    · right
      obtain ⟨x0, hx0mem, hx0flag, hx0pct⟩ := exists_lowest_target l ht
      rcases substituteLowestTarget_eq r (listMinPct (targetItems l)) l with
        ⟨hnone, -⟩ | ⟨l₁, x, l₂, hl, hflag, hpct, hsub⟩
      · exact absurd ⟨hx0flag, hx0pct⟩ (hnone x0 hx0mem)
      · refine ⟨l₁, x, l₂, hl, hflag, hpct, hlt, ?_⟩
        rw [applyRule, if_neg ht, if_pos hlt, hsub]
        simp
    · exact Or.inl (by rw [applyRule, if_neg ht, if_neg hlt])

theorem categoryScore_zero_drop (lst : List Item) (h : lst ≠ []) :
    categoryScore 0 lst = sumRaw lst / sumPossible lst * 100 := by
  rw [categoryScore, if_neg h, Nat.zero_min]
  rfl

theorem applyRule_score_mono (r : Item) (l : List (Item × Bool))
    (hpos : ∀ x ∈ l, 0 < x.1.2)
    (hq : ∀ x ∈ l, x.2 = true → pct x.1 = listMinPct (targetItems l) → x.1.2 = r.2) :
    categoryScore 0 (l.map fun x => x.1) ≤ categoryScore 0 (applyRule r l) := by
  rcases applyRule_cases r l with heq | ⟨l₁, x, l₂, hl, hflag, hpct, hlt, happ⟩
  · rw [heq]
  · rw [happ]
    subst hl
    have hxmem : x ∈ l₁ ++ x :: l₂ := List.mem_append_right _ (List.mem_cons_self _ _)
    have hx2 : x.1.2 = r.2 := hq x hxmem hflag hpct
    have hxpos : 0 < x.1.2 := hpos x hxmem
    have hraw : x.1.1 ≤ r.1 := by
      have h1 : pct x.1 < pct r := hpct ▸ hlt
      rw [pct, pct, ← hx2] at h1
      have h2 : x.1.1 / x.1.2 < r.1 / x.1.2 :=
        lt_of_mul_lt_mul_right h1 (by norm_num)
      exact le_of_lt ((div_lt_div_iff_of_pos_right hxpos).mp h2)
    have hbefore_ne : ((l₁ ++ x :: l₂).map fun y => y.1) ≠ [] := by simp
    have hafter_ne : (l₁.map (fun y => y.1) ++ r :: l₂.map fun y => y.1) ≠ [] := by simp
    rw [categoryScore_zero_drop _ hbefore_ne, categoryScore_zero_drop _ hafter_ne]
    have hsumPos_eq : sumPossible ((l₁ ++ x :: l₂).map fun y => y.1) =
        sumPossible (l₁.map (fun y => y.1) ++ r :: l₂.map fun y => y.1) := by
      simp [sumPossible, Function.comp, hx2]
    have hsumRaw_le : sumRaw ((l₁ ++ x :: l₂).map fun y => y.1) ≤
        sumRaw (l₁.map (fun y => y.1) ++ r :: l₂.map fun y => y.1) := by
      simp only [sumRaw, List.map_append, List.map_cons, List.map_map,
        List.sum_append, List.sum_cons, Function.comp]
      linarith
    have hden_pos : 0 < sumPossible ((l₁ ++ x :: l₂).map fun y => y.1) := by
      apply sumPossible_pos _ hbefore_ne
      intro y hy
      obtain ⟨z, hz, rfl⟩ := List.mem_map.mp hy
      exact hpos z hz
    calc sumRaw ((l₁ ++ x :: l₂).map fun y => y.1) /
            sumPossible ((l₁ ++ x :: l₂).map fun y => y.1) * 100
        ≤ sumRaw (l₁.map (fun y => y.1) ++ r :: l₂.map fun y => y.1) /
            sumPossible ((l₁ ++ x :: l₂).map fun y => y.1) * 100 := by
          apply mul_le_mul_of_nonneg_right _ (by norm_num)
          exact (div_le_div_iff_of_pos_right hden_pos).mpr hsumRaw_le
      _ = sumRaw (l₁.map (fun y => y.1) ++ r :: l₂.map fun y => y.1) /
            sumPossible (l₁.map (fun y => y.1) ++ r :: l₂.map fun y => y.1) * 100 := by
          rw [hsumPos_eq]

end Engine

/-- Working set for the first replacement counterexample: a 10/10
non-target and a 0/10 target. -/
def ruleSetA : List (Engine.Item × Bool) := [((10, 10), false), ((0, 10), true)]

/-- Replacer for the first counterexample: 1/100 — a higher percentage (1%)
than the 0% target, but a hundred possible points. -/
def replacerA : Engine.Item := (1, 100)

/-- Working set for the second replacement counterexample: 1/1 and 0.1/1
non-targets and a 5/100 target, scored with `drop_lowest = 1`. -/
def ruleSetB : List (Engine.Item × Bool) :=
  [((1, 1), false), ((1 / 10, 1), false), ((5, 100), true)]

/-- Replacer for the second counterexample: 20/100, the same points
possible as the target it replaces. -/
def replacerB : Engine.Item := (20, 100)

/-- C6 counterexample: applying a replacement rule CAN decrease the
student's category score.  First scenario (`drop_lowest = 0`): replacing a
0/10 target by a 1/100 replacer (1% > 0%) drags the category from
10/20 = 50% down to 11/110 = 10%.  Second scenario (equal points possible,
`drop_lowest = 1`): the substitution changes which assignment is dropped,
and the category falls from 55% to 2100/101 ≈ 20.8%. -/
theorem replacement_can_decrease_category_score :
    Engine.categoryScore 0 (Engine.applyRule replacerA ruleSetA) <
      Engine.categoryScore 0 (ruleSetA.map fun x => x.1)
    ∧ Engine.categoryScore 1 (Engine.applyRule replacerB ruleSetB) <
      Engine.categoryScore 1 (ruleSetB.map fun x => x.1) := by
  constructor
  · norm_num [Engine.applyRule, Engine.targetItems, Engine.substituteLowestTarget,
      Engine.listMinPct, Engine.pct, Engine.categoryScore, Engine.dropLowestN,
      Engine.removeFirstMin, Engine.removeFirstWithPct, Engine.sumRaw,
      Engine.sumPossible, ruleSetA, replacerA, List.filter, min_def,
      List.cons_ne_nil]
  · norm_num [Engine.applyRule, Engine.targetItems, Engine.substituteLowestTarget,
      Engine.listMinPct, Engine.pct, Engine.categoryScore, Engine.dropLowestN,
      Engine.removeFirstMin, Engine.removeFirstWithPct, Engine.sumRaw,
      Engine.sumPossible, ruleSetB, replacerB, List.filter, min_def,
      List.cons_ne_nil]

/-- C6 (amended): a replacement rule substitutes at most once (only the
single lowest-percentage target), and only when the replacer's percentage
is strictly greater than that target's; when the replacer's percentage is
at most the lowest target's, the working set — hence the category score —
is identical to the no-replacement case.  The substitution never decreases
the category score provided every lowest target has the replacer's points
possible and no drop-lowest is applied (without these conditions the score
can decrease, see the counterexample). -/
theorem replacement_rule_single_substitution (r : Engine.Item)
    (l : List (Engine.Item × Bool)) :
    (Engine.targetItems l ≠ [] →
        Engine.pct r ≤ Engine.listMinPct (Engine.targetItems l) →
        Engine.applyRule r l = l.map fun x => x.1)
    ∧ (Engine.applyRule r l = l.map (fun x => x.1)
        ∨ ∃ l₁ x l₂, l = l₁ ++ x :: l₂ ∧ x.2 = true
            ∧ Engine.pct x.1 = Engine.listMinPct (Engine.targetItems l)
            ∧ Engine.listMinPct (Engine.targetItems l) < Engine.pct r
            ∧ Engine.applyRule r l = l₁.map (fun y => y.1) ++ r :: l₂.map fun y => y.1)
    ∧ ((∀ x ∈ l, 0 < x.1.2) →
        (∀ x ∈ l, x.2 = true →
          Engine.pct x.1 = Engine.listMinPct (Engine.targetItems l) → x.1.2 = r.2) →
        Engine.categoryScore 0 (l.map fun x => x.1) ≤
          Engine.categoryScore 0 (Engine.applyRule r l)) := by
  refine ⟨?_, Engine.applyRule_cases r l, Engine.applyRule_score_mono r l⟩
  intro ht hle
  rw [Engine.applyRule, if_neg ht, if_neg (not_lt.mpr hle)]

/-- Working set for the C6 witness: an 8/10 non-target and a 5/10 target. -/
def ruleSetW : List (Engine.Item × Bool) := [((8, 10), false), ((5, 10), true)]

/-- Witness for the amended C6 at a concrete input: a 2/10 replacer (20% ≤
the 50% lowest target) leaves the working set unchanged, and a 9/10
replacer (90% > 50%, same points possible, no drops) never lowers the
category score. -/
theorem replacement_rule_single_substitution_witness :
    Engine.applyRule (2, 10) ruleSetW = ruleSetW.map (fun x => x.1)
    ∧ Engine.categoryScore 0 (ruleSetW.map fun x => x.1) ≤
        Engine.categoryScore 0 (Engine.applyRule ((9 : ℚ), (10 : ℚ)) ruleSetW) := by
  constructor
  · refine (replacement_rule_single_substitution (2, 10) ruleSetW).1 ?_ ?_
    · simp [Engine.targetItems, ruleSetW, List.filter]
    · norm_num [Engine.pct, Engine.listMinPct, Engine.targetItems, ruleSetW, List.filter]
  · refine (replacement_rule_single_substitution ((9 : ℚ), (10 : ℚ)) ruleSetW).2.2 ?_ ?_
    · intro x hx
      rcases (by simpa [ruleSetW] using hx :
          x = (((8 : ℚ), (10 : ℚ)), false) ∨ x = (((5 : ℚ), (10 : ℚ)), true)) with rfl | rfl
      · norm_num
      · norm_num
    · intro x hx _ _
      rcases (by simpa [ruleSetW] using hx :
          x = (((8 : ℚ), (10 : ℚ)), false) ∨ x = (((5 : ℚ), (10 : ℚ)), true)) with rfl | rfl
      · norm_num
      · norm_num

end GradeConverter
